import Mathlib

/-!
Shallow embedding of `src/primes.c` (cefqrn/count-primes).

Machine integers are modelled as `ℕ` with explicit truncation where the C
program computes in fixed width: a 64-bit product is reduced `% 2 ^ 64`, and a
store into a `u32` variable is reduced `% 2 ^ 32`.  C's `%` on a zero modulus
is undefined behavior; the embedding totalizes it with Lean's `n % 0 = n`
convention, and every theorem below carries the positivity hypotheses under
which the C program is actually run.
-/

namespace CountPrimes

/-- One modular product as written in the C source:
`(u64)x * y % m` stored back into a `u32` variable.  The multiplication is
performed in 64-bit arithmetic (hence `% 2 ^ 64`), reduced by `m`, and the
store truncates to 32 bits (hence `% 2 ^ 32`). -/
def mulmod (x y m : ℕ) : ℕ := x * y % 2 ^ 64 % m % 2 ^ 32

/-- The `while (exponent)` loop of `powmod` (src/primes.c lines 16-22).
`power` and `result` are the two `u32` locals; each multiplication is a
`mulmod`.  The condition bit `exponent & 1` is `exponent % 2`, and
`exponent >>= 1` is `exponent / 2`. -/
def powmodLoop (power result exponent m : ℕ) : ℕ :=
  if h : exponent = 0 then result
  else
    powmodLoop (mulmod power power m)
      (if exponent % 2 = 1 then mulmod result power m else result)
      (exponent / 2) m
termination_by exponent
decreasing_by omega

/-- `powmod` (src/primes.c lines 13-25): right-to-left binary exponentiation.
`power` is initialized to `base % m` and `result` to `1`. -/
def powmod (base exponent m : ℕ) : ℕ :=
  powmodLoop (base % m) 1 exponent m

/-- Model of `__builtin_ctzl`: the number of trailing zero bits.  The C
builtin is undefined on input `0`; the embedding returns `0` there, and the
theorem for the reachability claim shows the zero case is never consulted by
`is_strong_probable_prime`. -/
def ctz (n : ℕ) : ℕ :=
  if h : n = 0 then 0
  else if n % 2 = 0 then ctz (n / 2) + 1
  else 0
termination_by n
decreasing_by omega

/-- The squaring loop of `is_strong_probable_prime` (src/primes.c lines
60-65): up to `e` iterations, each comparing `power` with `n - 1` and then
squaring `power` modulo `n` with a 64-bit intermediate. -/
def sprpLoop (n power e : ℕ) : Bool :=
  match e with
  | 0 => false
  | e' + 1 =>
    if power = n - 1 then true
    else sprpLoop n (mulmod power power n) e'

/-- `is_strong_probable_prime` (src/primes.c lines 29-68).  The guards mirror
the C returns in order: `n <= 2`, evenness (`n & 1` is `n % 2`), divisibility
by the base, then the Miller-Rabin core: `e = ctz(n-1)`,
`power = powmod(base, (n-1) >> e, n)`, the `power == 1` early return, and the
squaring loop. -/
def is_strong_probable_prime (base n : ℕ) : Bool :=
  if n ≤ 2 then decide (n = 2)
  else if n % 2 = 0 then false
  else if n % base = 0 then decide (n = base)
  else
    let e := ctz (n - 1)
    let power := powmod base ((n - 1) >>> e) n
    if power = 1 then true
    else sprpLoop n power e

/-- `is_strong_probable_prime` with the trailing-zero-count primitive left
abstract.  Used to state that the behavior of the function does not depend on
what the primitive does on input `0` (where the C builtin is undefined). -/
def is_strong_probable_prime_with (ctzf : ℕ → ℕ) (base n : ℕ) : Bool :=
  if n ≤ 2 then decide (n = 2)
  else if n % 2 = 0 then false
  else if n % base = 0 then decide (n = base)
  else
    let e := ctzf (n - 1)
    let power := powmod base ((n - 1) >>> e) n
    if power = 1 then true
    else sprpLoop n power e

/-- The trial-division loop of `is_prime` (src/primes.c lines 80-86):
`for (u32 i = 3; i <= 61; i += 2)`, returning `some true` when `n == i`,
`some false` when `i` divides `n`, and `none` when the loop exhausts. -/
def trialLoop (n i : ℕ) : Option Bool :=
  if h : i ≤ 61 then
    if n = i then some true
    else if n % i = 0 then some false
    else trialLoop n (i + 2)
  else none
termination_by 62 - i
decreasing_by omega

/-- `is_prime` (src/primes.c lines 70-92): handle `n ≤ 2`, filter evens,
trial-divide by the odd numbers 3..61, then combine the three
strong-probable-prime tests with bases 2, 7 and 61. -/
def is_prime (n : ℕ) : Bool :=
  if n ≤ 2 then decide (n = 2)
  else if n % 2 = 0 then false
  else
    match trialLoop n 3 with
    | some b => b
    | none =>
      is_strong_probable_prime 2 n &&
      is_strong_probable_prime 7 n &&
      is_strong_probable_prime 61 n

/-- The counting loop of `main` (src/primes.c lines 96-97):
`for (u32 i = lo; i < hi; ++i) count += is_prime(i);` with `count` a `u32`
(additions wrap `% 2 ^ 32`). -/
def countFrom (i hi count : ℕ) : ℕ :=
  if h : i < hi then
    countFrom (i + 1) hi ((count + (is_prime i).toNat) % 2 ^ 32)
  else count
termination_by hi - i
decreasing_by omega

/-- The range driver of `main` (src/primes.c lines 94-100) with the hardcoded
bounds generalized to parameters: `u32 count = lo <= hi && is_prime(hi);`
followed by the counting loop from `lo` to `hi` exclusive. -/
def count_primes (lo hi : ℕ) : ℕ :=
  countFrom lo hi (decide (lo ≤ hi) && is_prime hi).toNat

/-- The hardcoded lower bound `LO` of src/primes.c. -/
def LO : ℕ := 0

/-- The hardcoded upper bound `HI` of src/primes.c. -/
def HI : ℕ := 100000000

/-- The count printed by `main`. -/
def main_count : ℕ := count_primes LO HI

/-- Exact-arithmetic modular product, following the spec's numeric contract
word for word (reduce the true product by the modulus, no fixed-width
truncation).  Comparison definition for the overflow claim. -/
def mulmodExact (x y m : ℕ) : ℕ := x * y % m

/-- `powmodLoop` with every product taken in exact arithmetic.  Comparison
definition for the overflow claim. -/
def powmodLoopExact (power result exponent m : ℕ) : ℕ :=
  if h : exponent = 0 then result
  else
    powmodLoopExact (mulmodExact power power m)
      (if exponent % 2 = 1 then mulmodExact result power m else result)
      (exponent / 2) m
termination_by exponent
decreasing_by omega

/-- `powmod` with every product taken in exact arithmetic.  Comparison
definition for the overflow claim. -/
def powmodExact (base exponent m : ℕ) : ℕ :=
  powmodLoopExact (base % m) 1 exponent m

/-- The squaring loop with every product taken in exact arithmetic.
Comparison definition for the overflow claim. -/
def sprpLoopExact (n power e : ℕ) : Bool :=
  match e with
  | 0 => false
  | e' + 1 =>
    if power = n - 1 then true
    else sprpLoopExact n (mulmodExact power power n) e'

/-- Under the `u32` bounds the truncated product is the exact one: both
operands are below the modulus, so the 64-bit product does not wrap and the
32-bit store does not truncate. -/
theorem mulmod_eq (x y m : ℕ) (hx : x < m) (hy : y < m) (hm : m ≤ 2 ^ 32) :
    mulmod x y m = x * y % m := by
  have hm0 : 0 < m := Nat.lt_of_le_of_lt (Nat.zero_le x) hx
  have hx32 : x ≤ 2 ^ 32 - 1 := Nat.le_pred_of_lt (lt_of_lt_of_le hx hm)
  have hy32 : y ≤ 2 ^ 32 - 1 := Nat.le_pred_of_lt (lt_of_lt_of_le hy hm)
  have hprod : x * y < 2 ^ 64 :=
    lt_of_le_of_lt (Nat.mul_le_mul hx32 hy32) (by norm_num)
  have hlt : x * y % m < 2 ^ 32 := lt_of_lt_of_le (Nat.mod_lt _ hm0) hm
  unfold mulmod
  rw [Nat.mod_eq_of_lt hprod, Nat.mod_eq_of_lt hlt]

/-- The truncated product stays below the modulus. -/
theorem mulmod_lt (x y m : ℕ) (hx : x < m) (hy : y < m) (hm : m ≤ 2 ^ 32) :
    mulmod x y m < m := by
  have hm0 : 0 < m := Nat.lt_of_le_of_lt (Nat.zero_le x) hx
  rw [mulmod_eq x y m hx hy hm]
  exact Nat.mod_lt _ hm0

/-- Fuel-indexed loop invariant for `powmodLoop`: with both locals below the
modulus, the loop computes `result * power ^ exponent` modulo `m`. -/
theorem powmodLoop_mod_aux (m : ℕ) (hm0 : 0 < m) (hm : m ≤ 2 ^ 32) :
    ∀ fuel e power result, e ≤ fuel → power < m → result < m →
      powmodLoop power result e m = result * power ^ e % m := by
  intro fuel
  induction fuel with
  | zero =>
    intro e power result he hp hr
    have he0 : e = 0 := Nat.le_zero.mp he
    subst he0
    rw [powmodLoop]
    simp [Nat.mod_eq_of_lt hr]
  | succ fuel ih =>
    intro e power result he hp hr
    rw [powmodLoop]
    by_cases he0 : e = 0
    · subst he0
      simp [Nat.mod_eq_of_lt hr]
    · simp only [dif_neg he0]
      have hp2 : mulmod power power m < m := mulmod_lt _ _ _ hp hp hm
      have hr2 : (if e % 2 = 1 then mulmod result power m else result) < m := by
        by_cases h2 : e % 2 = 1
        · simpa [h2] using mulmod_lt _ _ _ hr hp hm
        · simpa [h2] using hr
      rw [ih (e / 2) _ _ (by omega) hp2 hr2]
      have h1 : mulmod power power m ≡ power * power [MOD m] := by
        rw [mulmod_eq _ _ _ hp hp hm]
        exact Nat.mod_modEq _ _
      have h2 : (if e % 2 = 1 then mulmod result power m else result)
          ≡ result * power ^ (e % 2) [MOD m] := by
        by_cases h2 : e % 2 = 1
        · rw [if_pos h2, h2, pow_one, mulmod_eq _ _ _ hr hp hm]
          exact Nat.mod_modEq _ _
        · have h0 : e % 2 = 0 := by omega
          rw [if_neg h2, h0, pow_zero, mul_one]
      have heq : result * power ^ (e % 2) * (power * power) ^ (e / 2)
          = result * power ^ e := by
        rw [mul_assoc, ← pow_two, ← pow_mul, ← pow_add]
        congr 2
        omega
      have key : (if e % 2 = 1 then mulmod result power m else result) *
          mulmod power power m ^ (e / 2) ≡ result * power ^ e [MOD m] :=
        heq ▸ h2.mul (h1.pow _)
      exact key

/-- The `powmod` loop computes `result * power ^ exponent % m`. -/
theorem powmodLoop_mod (m : ℕ) (hm0 : 0 < m) (hm : m ≤ 2 ^ 32)
    (e power result : ℕ) (hp : power < m) (hr : result < m) :
    powmodLoop power result e m = result * power ^ e % m :=
  powmodLoop_mod_aux m hm0 hm e e power result le_rfl hp hr

/-- For a modulus strictly greater than 1 (every call site has `m = n ≥ 3`),
`powmod` computes the exact modular power. -/
theorem powmod_eq_pow (base e m : ℕ) (hm1 : 1 < m) (hm : m ≤ 2 ^ 32) :
    powmod base e m = base ^ e % m := by
  have hm0 : 0 < m := by omega
  unfold powmod
  rw [powmodLoop_mod m hm0 hm e (base % m) 1 (Nat.mod_lt _ hm0) hm1, one_mul,
    ← Nat.pow_mod]

/-- With modulus 1 and at least one loop iteration, the loop returns 0. -/
theorem powmodLoop_modOne_aux :
    ∀ fuel e power result, e ≤ fuel → e ≠ 0 →
      powmodLoop power result e 1 = 0 := by
  intro fuel
  induction fuel with
  | zero => intro e power result he he0; omega
  | succ fuel ih =>
    intro e power result he he0
    rw [powmodLoop]
    simp only [dif_neg he0]
    by_cases h2 : e / 2 = 0
    · have he1 : e = 1 := by omega
      subst he1
      simp [powmodLoop, mulmod, Nat.mod_one]
    · exact ih (e / 2) _ _ (by omega) h2

/-- `powmod` with modulus 1 and a nonzero exponent returns 0. -/
theorem powmod_modOne (base e : ℕ) (he : e ≠ 0) : powmod base e 1 = 0 :=
  powmodLoop_modOne_aux e e (base % 1) 1 le_rfl he

/-- Fuel-indexed trailing-zero-count specification: for nonzero `m`, shifting
out `ctz m` bits leaves an odd number, and multiplying back by `2 ^ ctz m`
recovers `m`. -/
theorem ctz_spec_aux :
    ∀ fuel m, m ≤ fuel → m ≠ 0 →
      (m >>> ctz m) % 2 = 1 ∧ m = (m >>> ctz m) * 2 ^ ctz m := by
  intro fuel
  induction fuel with
  | zero => intro m hm hm0; omega
  | succ fuel ih =>
    intro m hm hm0
    rw [ctz]
    simp only [dif_neg hm0]
    by_cases h2 : m % 2 = 0
    · simp only [if_pos h2]
      have hhalf : m / 2 ≠ 0 := by omega
      obtain ⟨hodd, heq⟩ := ih (m / 2) (by omega) hhalf
      rw [Nat.shiftRight_eq_div_pow] at hodd heq
      have hdiv : m >>> (ctz (m / 2) + 1) = m / 2 / 2 ^ ctz (m / 2) := by
        rw [Nat.shiftRight_eq_div_pow, pow_succ, mul_comm (2 ^ ctz (m / 2)) 2,
          ← Nat.div_div_eq_div_mul]
      constructor
      · rw [hdiv]; exact hodd
      · rw [hdiv, pow_succ]
        have hm2 : m = 2 * (m / 2) := by omega
        calc m = 2 * (m / 2) := hm2
          _ = 2 * (m / 2 / 2 ^ ctz (m / 2) * 2 ^ ctz (m / 2)) := by rw [← heq]
          _ = m / 2 / 2 ^ ctz (m / 2) * (2 ^ ctz (m / 2) * 2) := by ring
    · simp only [if_neg h2]
      rw [Nat.shiftRight_zero, pow_zero, mul_one]
      exact ⟨by omega, rfl⟩

/-- Trailing-zero-count specification for nonzero input. -/
theorem ctz_spec (m : ℕ) (hm0 : m ≠ 0) :
    (m >>> ctz m) % 2 = 1 ∧ m = (m >>> ctz m) * 2 ^ ctz m :=
  ctz_spec_aux m m le_rfl hm0

/-- A nonzero even number has at least one trailing zero bit. -/
theorem ctz_pos (m : ℕ) (hm0 : m ≠ 0) (h2 : m % 2 = 0) : 1 ≤ ctz m := by
  rw [ctz]
  simp [hm0, h2]

/-- The squaring loop returns `true` iff some squaring stage `i < e` of the
initial `power` hits `n - 1` modulo `n`. -/
theorem sprpLoop_iff (n : ℕ) (hn : 2 ≤ n) (hn32 : n ≤ 2 ^ 32) :
    ∀ e power, power < n →
      (sprpLoop n power e = true ↔ ∃ i, i < e ∧ power ^ 2 ^ i % n = n - 1) := by
  intro e
  induction e with
  | zero =>
    intro power hp
    simp [sprpLoop]
  | succ e ih =>
    intro power hp
    have hn0 : 0 < n := by omega
    rw [sprpLoop]
    by_cases h1 : power = n - 1
    · simp only [if_pos h1]
      constructor
      · intro _
        exact ⟨0, Nat.succ_pos e, by
          rw [pow_zero, pow_one, Nat.mod_eq_of_lt hp, h1]⟩
      · intro _; trivial
    · simp only [if_neg h1]
      have hp2 : mulmod power power n < n := mulmod_lt _ _ _ hp hp hn32
      rw [ih (mulmod power power n) hp2]
      have hstep : ∀ i : ℕ, mulmod power power n ^ 2 ^ i % n
          = power ^ 2 ^ (i + 1) % n := by
        intro i
        rw [mulmod_eq _ _ _ hp hp hn32, ← Nat.pow_mod, ← pow_two, ← pow_mul,
          pow_succ, mul_comm (2 ^ i) 2]
      constructor
      · rintro ⟨i, hi, heq⟩
        exact ⟨i + 1, by omega, by rw [← hstep i]; exact heq⟩
      · rintro ⟨j, hj, heq⟩
        match j with
        | 0 =>
          rw [pow_zero, pow_one, Nat.mod_eq_of_lt hp] at heq
          exact absurd heq h1
        | i + 1 =>
          exact ⟨i, by omega, by rw [hstep i]; exact heq⟩

/-- Fuel-indexed refinement: with both locals below a `u32` modulus, the
truncating loop agrees with the exact-arithmetic loop step by step. -/
theorem powmodLoop_eq_exact_aux (m : ℕ) (hm : m ≤ 2 ^ 32) :
    ∀ fuel e power result, e ≤ fuel → power < m → result < m →
      powmodLoop power result e m = powmodLoopExact power result e m := by
  intro fuel
  induction fuel with
  | zero =>
    intro e power result he hp hr
    have he0 : e = 0 := Nat.le_zero.mp he
    subst he0
    rw [powmodLoop, powmodLoopExact]
    simp
  | succ fuel ih =>
    intro e power result he hp hr
    rw [powmodLoop, powmodLoopExact]
    by_cases he0 : e = 0
    · simp [he0]
    · have hm0 : 0 < m := Nat.lt_of_le_of_lt (Nat.zero_le power) hp
      simp only [dif_neg he0]
      have hpp : mulmod power power m = mulmodExact power power m :=
        mulmod_eq _ _ _ hp hp hm
      have hrp : (if e % 2 = 1 then mulmod result power m else result)
          = (if e % 2 = 1 then mulmodExact result power m else result) := by
        by_cases h2 : e % 2 = 1
        · simp only [if_pos h2]; exact mulmod_eq _ _ _ hr hp hm
        · simp [h2]
      rw [hpp, hrp]
      have hp2 : mulmodExact power power m < m := Nat.mod_lt _ hm0
      have hr2 : (if e % 2 = 1 then mulmodExact result power m else result)
          < m := by
        by_cases h2 : e % 2 = 1
        · simp only [if_pos h2]; exact Nat.mod_lt _ hm0
        · simp only [if_neg h2]; exact hr
      exact ih (e / 2) _ _ (by omega) hp2 hr2

/-- The squaring loop with truncating products agrees with the
exact-arithmetic squaring loop whenever `power < n ≤ 2 ^ 32`. -/
theorem sprpLoop_eq_exact (n : ℕ) (hn32 : n ≤ 2 ^ 32) :
    ∀ e power, power < n → sprpLoop n power e = sprpLoopExact n power e := by
  intro e
  induction e with
  | zero => intro power hp; rfl
  | succ e ih =>
    intro power hp
    have hn0 : 0 < n := Nat.lt_of_le_of_lt (Nat.zero_le power) hp
    rw [sprpLoop, sprpLoopExact]
    by_cases h1 : power = n - 1
    · simp [h1]
    · simp only [if_neg h1]
      rw [mulmod_eq _ _ _ hp hp hn32]
      exact ih (mulmodExact power power n) (Nat.mod_lt _ hn0)

/-- Fuel-indexed invariant of the counting loop: starting from a `u32`
accumulator, the loop adds one per `is_prime`-positive value of the half-open
range, wrapping modulo `2 ^ 32`. -/
theorem countFrom_sum_aux (hi : ℕ) :
    ∀ fuel i c, hi ≤ i + fuel → c < 2 ^ 32 →
      countFrom i hi c
        = (c + ∑ j in Finset.Ico i hi, (is_prime j).toNat) % 2 ^ 32 := by
  intro fuel
  induction fuel with
  | zero =>
    intro i c hf hc
    rw [countFrom]
    have hnot : ¬ i < hi := by omega
    rw [dif_neg hnot, Finset.Ico_eq_empty hnot]
    simp only [Finset.sum_empty, add_zero]
    omega
  | succ fuel ih =>
    intro i c hf hc
    rw [countFrom]
    by_cases hih : i < hi
    · rw [dif_pos hih]
      rw [ih (i + 1) _ (by omega) (Nat.mod_lt _ (by norm_num))]
      rw [Finset.sum_eq_sum_Ico_succ_bot hih]
      rw [Nat.mod_add_mod, add_assoc]
    · rw [dif_neg hih, Finset.Ico_eq_empty hih]
      simp only [Finset.sum_empty, add_zero]
      omega

/-- The range driver as a wrapped sum: the boundary term for `hi` plus one
per `is_prime`-positive value of `[lo, hi)`. -/
theorem count_primes_eq_sum (lo hi : ℕ) :
    count_primes lo hi
      = ((decide (lo ≤ hi) && is_prime hi).toNat
          + ∑ j in Finset.Ico lo hi, (is_prime j).toNat) % 2 ^ 32 := by
  rw [count_primes]
  exact countFrom_sum_aux hi hi lo _ (by omega)
    (lt_of_lt_of_le (Bool.toNat_lt _) (by norm_num))

/-- Summing `Bool.toNat` of the oracle over a finite set counts the elements
the oracle accepts. -/
theorem sum_toNat_eq_card_filter (s : Finset ℕ) :
    ∑ j in s, (is_prime j).toNat
      = (s.filter (fun i => is_prime i = true)).card := by
  rw [Finset.card_filter]
  apply Finset.sum_congr rfl
  intro j _
  cases h : is_prime j <;> simp [h]

/-- The oracle rejects 0. -/
theorem is_prime_zero : is_prime 0 = false := by
  simp [is_prime]

/-- Claim C2: for a prime witness base `a` and an odd candidate `n > 2` not
divisible by `a`, `is_strong_probable_prime a n` returns `true` iff `n`
satisfies the strong-pseudoprime criterion for base `a`: writing
`n - 1 = d * 2 ^ e` with `d` odd (`e` the trailing-zero count of `n - 1`,
`d = (n - 1) >>> e`), either `a ^ d ≡ 1 (mod n)` or
`a ^ (d * 2 ^ i) ≡ n - 1 (mod n)` for some `i < e`. -/
theorem sprp_criterion_iff (a n : ℕ) (ha : Nat.Prime a) (hn2 : 2 < n)
    (hodd : n % 2 = 1) (hndvd : ¬ a ∣ n) (ha32 : a < 2 ^ 32)
    (hn32 : n < 2 ^ 32) :
    (is_strong_probable_prime a n = true ↔
      (a ^ ((n - 1) >>> ctz (n - 1)) ≡ 1 [MOD n] ∨
       ∃ i, i < ctz (n - 1) ∧
         a ^ (((n - 1) >>> ctz (n - 1)) * 2 ^ i) ≡ n - 1 [MOD n])) := by
  have hn1 : 1 < n := by omega
  have hn32' : n ≤ 2 ^ 32 := le_of_lt hn32
  unfold is_strong_probable_prime
  rw [if_neg (by omega : ¬ n ≤ 2), if_neg (by omega : ¬ n % 2 = 0),
    if_neg (fun h => hndvd (Nat.dvd_of_mod_eq_zero h))]
  show (if powmod a ((n - 1) >>> ctz (n - 1)) n = 1 then true
    else sprpLoop n (powmod a ((n - 1) >>> ctz (n - 1)) n) (ctz (n - 1)))
      = true ↔ _
  rw [powmod_eq_pow a ((n - 1) >>> ctz (n - 1)) n hn1 hn32']
  set d := (n - 1) >>> ctz (n - 1) with hdd
  set e := ctz (n - 1) with hee
  have hplt : a ^ d % n < n := Nat.mod_lt _ (by omega)
  have hone : (1 : ℕ) % n = 1 := Nat.mod_eq_of_lt hn1
  have hmod1 : (a ^ d ≡ 1 [MOD n]) ↔ a ^ d % n = 1 := by
    unfold Nat.ModEq
    rw [hone]
  have hmodi : ∀ i, (a ^ (d * 2 ^ i) ≡ n - 1 [MOD n]) ↔
      a ^ (d * 2 ^ i) % n = n - 1 := by
    intro i
    unfold Nat.ModEq
    rw [Nat.mod_eq_of_lt (by omega : n - 1 < n)]
  by_cases hp1 : a ^ d % n = 1
  · rw [if_pos hp1]
    constructor
    · intro _
      exact Or.inl (hmod1.mpr hp1)
    · intro _
      rfl
  · rw [if_neg hp1]
    rw [sprpLoop_iff n (by omega) hn32' e (a ^ d % n) hplt]
    have hstage : ∀ i, (a ^ d % n) ^ 2 ^ i % n = a ^ (d * 2 ^ i) % n := by
      intro i
      rw [← Nat.pow_mod, ← pow_mul]
    constructor
    · rintro ⟨i, hi, hh⟩
      exact Or.inr ⟨i, hi, (hmodi i).mpr (by rw [← hstage i]; exact hh)⟩
    · rintro (h | ⟨i, hi, hh⟩)
      · exact absurd (hmod1.mp h) hp1
      · exact ⟨i, hi, by rw [hstage i]; exact (hmodi i).mp hh⟩

/-- Witness for claim C2 at the concrete input `a = 2`, `n = 5`. -/
theorem sprp_criterion_iff_witness :
    (is_strong_probable_prime 2 5 = true ↔
      ((2 : ℕ) ^ ((5 - 1) >>> ctz (5 - 1)) ≡ 1 [MOD 5] ∨
       ∃ i, i < ctz (5 - 1) ∧
         (2 : ℕ) ^ (((5 - 1) >>> ctz (5 - 1)) * 2 ^ i) ≡ 5 - 1 [MOD 5])) :=
  sprp_criterion_iff 2 5 Nat.prime_two (by norm_num) (by norm_num)
    (by norm_num) (by norm_num) (by norm_num)

/-- Claim C3 counterexample: at `base = 5`, `exponent = 0`, `modulus = 1`
(all unsigned 32-bit, modulus > 0), `powmod` returns 1, while
`base ^ exponent mod modulus = 1 mod 1 = 0`. -/
theorem powmod_spec_counterexample : powmod 5 0 1 ≠ 5 ^ 0 % 1 := by
  simp [powmod, powmodLoop]

/-- Claim C3 as amended: for unsigned 32-bit `base`, `exponent`, `modulus`
with `modulus > 0` and not (`modulus = 1` and `exponent = 0`), `powmod`
returns `base ^ exponent mod modulus`. -/
theorem powmod_correct_amended (base exponent m : ℕ) (hb : base < 2 ^ 32)
    (he : exponent < 2 ^ 32) (hm0 : 0 < m) (hm : m < 2 ^ 32)
    (hext : 1 < m ∨ 0 < exponent) :
    powmod base exponent m = base ^ exponent % m := by
  by_cases hm1 : 1 < m
  · exact powmod_eq_pow _ _ _ hm1 (le_of_lt hm)
  · have hmeq : m = 1 := by omega
    have hee : exponent ≠ 0 := by
      rcases hext with h | h
      · omega
      · omega
    subst hmeq
    rw [powmod_modOne _ _ hee, Nat.mod_one]

/-- Witness for the amended claim C3 at `base = 3`, `exponent = 5`,
`modulus = 7`. -/
theorem powmod_correct_amended_witness : powmod 3 5 7 = 3 ^ 5 % 7 :=
  powmod_correct_amended 3 5 7 (by norm_num) (by norm_num) (by norm_num)
    (by norm_num) (Or.inl (by norm_num))

/-- Claim C4: with the hardcoded bounds generalized to parameters, the range
driver of `main` returns, for `lo ≤ hi`, exactly the number of values in the
closed range `[lo, hi]` accepted by the oracle `is_prime` (counting `hi`
exactly once), and returns 0 for `lo > hi`. -/
theorem count_primes_correct (lo hi : ℕ) (hlo : lo < 2 ^ 32)
    (hhi : hi < 2 ^ 32) :
    (lo ≤ hi → count_primes lo hi
        = ((Finset.Icc lo hi).filter (fun i => is_prime i = true)).card) ∧
    (hi < lo → count_primes lo hi = 0) := by
  constructor
  · intro hle
    rw [count_primes_eq_sum, decide_eq_true hle, Bool.true_and]
    have hsum : (is_prime hi).toNat
        + ∑ j in Finset.Ico lo hi, (is_prime j).toNat
        = ∑ j in Finset.Icc lo hi, (is_prime j).toNat := by
      rw [← Nat.Ico_succ_right, Finset.sum_Ico_succ_top hle, add_comm]
    rw [hsum, sum_toNat_eq_card_filter]
    have hcard : ((Finset.Icc lo hi).filter
        (fun i => is_prime i = true)).card < 2 ^ 32 := by
      have hle_card := Finset.card_filter_le (Finset.Icc lo hi)
        (fun i => is_prime i = true)
      rw [Nat.card_Icc] at hle_card
      by_cases h0 : lo = 0
      · subst h0
        have hmem : (0 : ℕ) ∈ Finset.Icc 0 hi := by simp
        have hnot : (0 : ℕ) ∉ (Finset.Icc 0 hi).filter
            (fun i => is_prime i = true) := by
          simp [Finset.mem_filter, is_prime_zero]
        have hsub : (Finset.Icc 0 hi).filter (fun i => is_prime i = true)
            ⊆ (Finset.Icc 0 hi).erase 0 :=
          (Finset.subset_erase).mpr ⟨Finset.filter_subset _ _, hnot⟩
        have hcle := Finset.card_le_card hsub
        rw [Finset.card_erase_of_mem hmem, Nat.card_Icc] at hcle
        omega
      · omega
    exact Nat.mod_eq_of_lt hcard
  · intro hgt
    rw [count_primes_eq_sum, decide_eq_false (by omega), Bool.false_and]
    rw [Finset.Ico_eq_empty (by omega)]
    simp

/-- Witness for claim C4 at `lo = 2`, `hi = 10`. -/
theorem count_primes_correct_witness :
    count_primes 2 10
      = ((Finset.Icc 2 10).filter (fun i => is_prime i = true)).card :=
  (count_primes_correct 2 10 (by norm_num) (by norm_num)).1 (by norm_num)

/-- Claim C5: for a prime witness base `a` and an odd candidate `n > 2`
divisible by `a`, `is_strong_probable_prime a n` returns `true` iff `n = a`
(any proper multiple of the base is classified composite before the
Fermat-based test runs). -/
theorem sprp_base_divides_iff (a n : ℕ) (ha : Nat.Prime a) (hn2 : 2 < n)
    (hodd : n % 2 = 1) (hdvd : a ∣ n) :
    (is_strong_probable_prime a n = true ↔ n = a) := by
  obtain ⟨k, hk⟩ := hdvd
  unfold is_strong_probable_prime
  rw [if_neg (by omega : ¬ n ≤ 2), if_neg (by omega : ¬ n % 2 = 0)]
  have hmod : n % a = 0 := by
    rw [hk]
    exact Nat.mul_mod_right a k
  rw [if_pos hmod]
  simp

/-- Witness for claim C5 at `a = 3`, `n = 9`. -/
theorem sprp_base_divides_iff_witness :
    (is_strong_probable_prime 3 9 = true ↔ 9 = 3) :=
  sprp_base_divides_iff 3 9 Nat.prime_three (by norm_num) (by norm_num)
    (by norm_num)

/-- Claim C6: for odd `n > 2`, the decomposition computed by
`is_strong_probable_prime` satisfies the invariant: with
`e = ctz (n - 1)` and `d = (n - 1) >>> e`, we have `n - 1 = d * 2 ^ e`,
`d` odd, and `e ≥ 1`. -/
theorem decomposition_invariant (n : ℕ) (hn2 : 2 < n) (hodd : n % 2 = 1) :
    n - 1 = ((n - 1) >>> ctz (n - 1)) * 2 ^ ctz (n - 1) ∧
    ((n - 1) >>> ctz (n - 1)) % 2 = 1 ∧ 1 ≤ ctz (n - 1) := by
  have h0 : n - 1 ≠ 0 := by omega
  obtain ⟨ho, he⟩ := ctz_spec (n - 1) h0
  exact ⟨he, ho, ctz_pos (n - 1) h0 (by omega)⟩

/-- Witness for claim C6 at `n = 5`. -/
theorem decomposition_invariant_witness :
    5 - 1 = ((5 - 1) >>> ctz (5 - 1)) * 2 ^ ctz (5 - 1) ∧
    ((5 - 1) >>> ctz (5 - 1)) % 2 = 1 ∧ 1 ≤ ctz (5 - 1) :=
  decomposition_invariant 5 (by norm_num) (by norm_num)

/-- Claim C7: every modular multiplication in `powmod` and in the squaring
loop multiplies two values below the modulus (at most `2 ^ 32 - 1`) in 64-bit
precision; the 64-bit product never wraps, so the truncating implementations
coincide with exact (arbitrary-precision) modular arithmetic. -/
theorem no_overflow_exact_arithmetic :
    (∀ x y m : ℕ, x < m → y < m → m ≤ 2 ^ 32 →
      x * y < 2 ^ 64 ∧ mulmod x y m = x * y % m) ∧
    (∀ base exponent m : ℕ, 1 < m → m ≤ 2 ^ 32 →
      powmod base exponent m = powmodExact base exponent m) ∧
    (∀ n power e : ℕ, power < n → n ≤ 2 ^ 32 →
      sprpLoop n power e = sprpLoopExact n power e) := by
  refine ⟨fun x y m hx hy hm => ⟨?_, mulmod_eq x y m hx hy hm⟩, ?_, ?_⟩
  · have hx32 : x ≤ 2 ^ 32 - 1 := Nat.le_pred_of_lt (lt_of_lt_of_le hx hm)
    have hy32 : y ≤ 2 ^ 32 - 1 := Nat.le_pred_of_lt (lt_of_lt_of_le hy hm)
    exact lt_of_le_of_lt (Nat.mul_le_mul hx32 hy32) (by norm_num)
  · intro base exponent m hm1 hm
    unfold powmod powmodExact
    exact powmodLoop_eq_exact_aux m hm exponent _ _ _ le_rfl
      (Nat.mod_lt _ (by omega)) hm1
  · intro n power e hp hn
    exact sprpLoop_eq_exact n hn e power hp

/-- Witness for claim C7 at concrete inputs. -/
theorem no_overflow_exact_arithmetic_witness :
    (2 * 3 < 2 ^ 64 ∧ mulmod 2 3 5 = 2 * 3 % 5) ∧
    powmod 3 6 7 = powmodExact 3 6 7 ∧
    sprpLoop 5 2 3 = sprpLoopExact 5 2 3 :=
  ⟨no_overflow_exact_arithmetic.1 2 3 5 (by norm_num) (by norm_num)
      (by norm_num),
   no_overflow_exact_arithmetic.2.1 3 6 7 (by norm_num) (by norm_num),
   no_overflow_exact_arithmetic.2.2 5 2 3 (by norm_num) (by norm_num)⟩

/-- Claim C8: the behavior of `is_strong_probable_prime` does not depend on
what the trailing-zero-count primitive does on input 0: any function agreeing
with `ctz` on nonzero inputs yields the same result on every input pair,
because the argument `n - 1` is nonzero whenever the primitive is reached
(`n` is odd and greater than 2 at that point). -/
theorem ctz_zero_case_unreachable (g : ℕ → ℕ)
    (hg : ∀ m, m ≠ 0 → ctz m = g m) (base n : ℕ) :
    is_strong_probable_prime base n = is_strong_probable_prime_with g base n := by
  unfold is_strong_probable_prime is_strong_probable_prime_with
  by_cases h1 : n ≤ 2
  · rw [if_pos h1, if_pos h1]
  · rw [if_neg h1, if_neg h1]
    by_cases h2 : n % 2 = 0
    · rw [if_pos h2, if_pos h2]
    · rw [if_neg h2, if_neg h2]
      by_cases h3 : n % base = 0
      · rw [if_pos h3, if_pos h3]
      · rw [if_neg h3, if_neg h3]
        have h0 : n - 1 ≠ 0 := by omega
        rw [hg (n - 1) h0]

/-- Witness for claim C8: a function differing from `ctz` only at 0 gives the
same verdict at `base = 2`, `n = 5`. -/
theorem ctz_zero_case_unreachable_witness :
    is_strong_probable_prime 2 5
      = is_strong_probable_prime_with
          (fun m => if m = 0 then 37 else ctz m) 2 5 :=
  ctz_zero_case_unreachable (fun m => if m = 0 then 37 else ctz m)
    (fun m hm => by simp [hm]) 2 5

/-- Claim C9: for every unsigned 32-bit `a` and modulus `m > 1`,
`powmod a 0 m = 1` and `powmod a 1 m = a % m`. -/
theorem powmod_zero_one_exponent (a m : ℕ) (ha : a < 2 ^ 32) (hm1 : 1 < m)
    (hm : m < 2 ^ 32) :
    powmod a 0 m = 1 ∧ powmod a 1 m = a % m := by
  constructor
  · rw [powmod_eq_pow a 0 m hm1 (le_of_lt hm), pow_zero,
      Nat.mod_eq_of_lt hm1]
  · rw [powmod_eq_pow a 1 m hm1 (le_of_lt hm), pow_one]

/-- Witness for claim C9 at `a = 7`, `m = 5`. -/
theorem powmod_zero_one_exponent_witness :
    powmod 7 0 5 = 1 ∧ powmod 7 1 5 = 7 % 5 :=
  powmod_zero_one_exponent 7 5 (by norm_num) (by norm_num) (by norm_num)

/-- Claim C10: for unsigned 32-bit `base` and `exponent` and modulus `m > 1`,
the value returned by `powmod` is strictly less than `m`. -/
theorem powmod_lt_modulus (base exponent m : ℕ) (hb : base < 2 ^ 32)
    (he : exponent < 2 ^ 32) (hm1 : 1 < m) (hm : m < 2 ^ 32) :
    powmod base exponent m < m := by
  rw [powmod_eq_pow base exponent m hm1 (le_of_lt hm)]
  exact Nat.mod_lt _ (by omega)

/-- Witness for claim C10 at `base = 7`, `exponent = 3`, `m = 5`. -/
theorem powmod_lt_modulus_witness : powmod 7 3 5 < 5 :=
  powmod_lt_modulus 7 3 5 (by norm_num) (by norm_num) (by norm_num)
    (by norm_num)

end CountPrimes
